import Mathlib

/-!
Verification of the core algorithms of the blender-bone-tools add-on.

Three components are embedded from the source:
* the weight transfer engine (`src/modules/weight_transfer.py`):
  export of per-vertex weights and nearest-neighbour re-assignment;
* the chain namer (`src/modules/physbone_renamer.py`):
  depth-first hierarchical renaming of a selected bone forest;
* the name mapper (`src/modules/name_matcher.py`):
  preset-to-preset bone-name conversion.

Host floating point vectors are idealised as rational triples; the host
KD-tree query `kd.find` is modelled as the exact nearest point of the
source list (first index on ties; the host library does not specify the
order among equidistant points, and no theorem below depends on it).
-/

/-! ## Weight transfer engine: data model (weight_transfer.py) -/

/-- A world-space position (`Vector` of floats in the host, idealised as ℚ³). -/
abbrev Point : Type := ℚ × ℚ × ℚ

/-- Squared euclidean distance between two points.  The host compares
euclidean distances of non-negative radii, which is equivalent to
comparing squared distances. -/
def dist2 (a b : Point) : ℚ :=
  (a.1 - b.1) * (a.1 - b.1) + (a.2.1 - b.2.1) * (a.2.1 - b.2.1) +
    (a.2.2 - b.2.2) * (a.2.2 - b.2.2)

/-- One `{"bone": ..., "weight": ...}` entry of the exchange format. -/
structure Weight where
  bone : String
  weight : ℚ
deriving DecidableEq, Repr

/-- One `{"coord": ..., "weights": ...}` entry of the exchange format. -/
structure WeightedVertex where
  coord : Point
  weights : List Weight
deriving DecidableEq, Repr

instance : Inhabited WeightedVertex := ⟨⟨(0, 0, 0), []⟩⟩

/-- The JSON exchange document: `{"vertex_groups": [...], "vertices": [...]}`. -/
structure WeightFile where
  vertexGroups : List String
  vertices : List WeightedVertex
deriving DecidableEq, Repr

/-- A live mesh vertex of the host: its world position, selection flag and
vertex-group memberships (`group.weight(vertex.index)` succeeds exactly on
the groups listed here). -/
structure MeshVertex where
  coord : Point
  select : Bool
  weights : List Weight
deriving DecidableEq, Repr

instance : Inhabited MeshVertex := ⟨⟨(0, 0, 0), false, []⟩⟩

/-- `group.weight(vertex.index)`: the vertex's weight in group `g`, or
`none` when the call raises `RuntimeError` (vertex not in the group). -/
def vgWeight (v : MeshVertex) (g : String) : Option ℚ :=
  (v.weights.find? (fun w => w.bone == g)).map (fun w => w.weight)

/-- The weight list exported for one vertex: the groups are scanned in
order, `RuntimeError` skips the group, and only weights `> 0` are kept
(`WEIGHT_OT_export_weights.execute`, inner loop). -/
def vertexExportWeights (groups : List String) (v : MeshVertex) : List Weight :=
  groups.filterMap (fun g =>
    match vgWeight v g with
    | none => none
    | some w => if 0 < w then some ⟨g, w⟩ else none)

/-- `WEIGHT_OT_export_weights.execute`: emit the group list verbatim and,
for each vertex that has at least one positive weight, one entry with its
world coordinate and its positive weights; weightless vertices are
omitted entirely. -/
def exportWeights (mesh : List MeshVertex) (groups : List String) : WeightFile :=
  { vertexGroups := groups
    vertices := mesh.filterMap (fun v =>
      let ws := vertexExportWeights groups v
      if ws.isEmpty then none else some ⟨v.coord, ws⟩) }

/-! ## Weight transfer engine: nearest-neighbour matching -/

/-- Model of the host KD-tree query `kd.find`: the index of a source
vertex at minimal squared distance from `p`, together with that distance;
`none` on an empty source list.  Ties resolve to the earliest index; the
host library leaves the tie order unspecified and no theorem below relies
on this choice. -/
def nearestIdx : List WeightedVertex → Point → Option (Nat × ℚ)
  | [], _ => none
  | v :: vs, p =>
    let d := dist2 v.coord p
    match nearestIdx vs p with
    | none => some (0, d)
    | some (j, dj) => if dj < d then some (j + 1, dj) else some (0, d)

/-- Model of `kd.find_range(p, r)` followed by taking `matches[0]` (the
closest in-range point): the nearest source index provided its distance
is within `r`, otherwise `none`. -/
def nearestInRange (srcs : List WeightedVertex) (p : Point) (r : ℚ) : Option Nat :=
  match nearestIdx srcs p with
  | none => none
  | some (j, dj) => if dj ≤ r * r then some j else none

/-- The per-target branch of `WEIGHT_OT_import_weights.execute`: with
`max_distance > 0` use the range query and skip the target when it is
empty, otherwise use the unrestricted nearest query. -/
def matchTarget (srcs : List WeightedVertex) (maxDist : ℚ) (p : Point) : Option Nat :=
  if 0 < maxDist then nearestInRange srcs p maxDist
  else (nearestIdx srcs p).map (fun jd => jd.1)

/-- The matching loop of `WEIGHT_OT_import_weights.execute`: one output
entry `(targetIndex, weights of the matched source vertex)` per matched
target, in target order; unmatched targets produce nothing. -/
def transfer (file : WeightFile) (targets : List (Nat × Point)) (maxDist : ℚ) :
    List (Nat × List Weight) :=
  targets.filterMap (fun t =>
    (matchTarget file.vertices maxDist t.2).map
      (fun j => (t.1, (file.vertices.getD j default).weights)))

/-! ## Weight transfer engine: applying the result to the mesh -/

/-- Set the membership of one bone on a vertex (`group.add(..., 'REPLACE')`):
replace the existing entry for that bone or append a new one. -/
def setWeight : List Weight → String → ℚ → List Weight
  | [], b, w => [⟨b, w⟩]
  | x :: xs, b, w => if x.bone = b then ⟨b, w⟩ :: xs else x :: setWeight xs b w

/-- The result of clearing a matched vertex and re-adding the transferred
weights: bones without a vertex group are ignored, the rest are set in
order (`WEIGHT_OT_import_weights.execute`, apply loops). -/
def applyWeights (groups : List String) (ws : List Weight) : List Weight :=
  ws.foldl (fun acc w =>
    if groups.contains w.bone then setWeight acc w.bone w.weight else acc) []

/-- Apply the batched weight operations: each matched vertex index gets
its transferred weights (clear-then-set), every other vertex keeps its
weights unchanged. -/
def applyOps (groups : List String) (ops : List (Nat × List Weight))
    (mesh : List MeshVertex) : List MeshVertex :=
  mesh.mapIdx (fun i v =>
    match ops.lookup i with
    | some ws => ⟨v.coord, v.select, applyWeights groups ws⟩
    | none => v)

/-- The target list of the import loop: every vertex index with its world
position, restricted to selected vertices when `selected_only` is set. -/
def importTargets (selectedOnly : Bool) (mesh : List MeshVertex) : List (Nat × Point) :=
  (mesh.enum.filter (fun iv => !selectedOnly || iv.2.select)).map
    (fun iv => (iv.1, iv.2.coord))

/-- The host data the import operator mutates: the mesh's vertex-group
list and its vertices. -/
structure MeshState where
  groups : List String
  mesh : List MeshVertex
deriving DecidableEq, Repr

/-- One entry of a parsed document's `vertices` array.  `ok` is an entry
carrying both a `"coord"` and a `"weights"` field; `noCoord` is an entry
without a `"coord"` key, whose field access raises `KeyError` when the
KD-tree is filled — after the missing vertex groups were already
created. -/
inductive RawVertex where
  | ok : Point → List Weight → RawVertex
  | noCoord : RawVertex
deriving DecidableEq, Repr

/-- Whether reading this entry's coordinate raises. -/
def RawVertex.isBad : RawVertex → Bool
  | .ok _ _ => false
  | .noCoord => true

/-- The well-typed vertex carried by a well-formed entry. -/
def RawVertex.toVertex : RawVertex → Option WeightedVertex
  | .ok p ws => some ⟨p, ws⟩
  | .noCoord => none

/-- The import payload after `json.load`: `malformed` covers a document
that is not a JSON object or lacks the `vertex_groups`/`vertices` keys
(the explicitly checked shapes); `parsed` is a document with the right
top-level shape whose individual vertex entries may still be
malformed. -/
inductive ImportDoc where
  | malformed : ImportDoc
  | parsed : List String → List RawVertex → ImportDoc

/-- The failures of `WEIGHT_OT_import_weights.execute`:
the first three are the explicit validation checks; `badVertexEntry` is
the `KeyError` raised while filling the KD-tree from an entry without a
`"coord"` key, reported by the surrounding exception handler. -/
inductive ImportError where
  | noVertsSelected : ImportError
  | invalidFormat : ImportError
  | emptyData : ImportError
  | badVertexEntry : ImportError
deriving DecidableEq, Repr

/-- `WEIGHT_OT_import_weights.execute`: validation checks in source
order (vertex selection when `selected_only`, document shape, empty
vertex list), then creation of the missing vertex groups, then the
KD-tree build — which is the first point that reads a vertex entry's
`"coord"` field and therefore raises on a malformed entry only after the
group creation has mutated the mesh — then matching and batched weight
application. -/
def importExecute (selectedOnly : Bool) (maxDist : ℚ) (doc : ImportDoc)
    (st : MeshState) : Option ImportError × MeshState :=
  if selectedOnly && st.mesh.all (fun v => !v.select) then
    (some .noVertsSelected, st)
  else
    match doc with
    | .malformed => (some .invalidFormat, st)
    | .parsed vgs rawVerts =>
      if rawVerts.isEmpty then (some .emptyData, st)
      else
        let finalGroups := st.groups ++ vgs.filter
          (fun g => !st.groups.contains g)
        if rawVerts.any (fun rv => rv.isBad) then
          (some .badVertexEntry, ⟨finalGroups, st.mesh⟩)
        else
          let file : WeightFile := ⟨vgs, rawVerts.filterMap RawVertex.toVertex⟩
          let ops := transfer file (importTargets selectedOnly st.mesh) maxDist
          (none, ⟨finalGroups, applyOps finalGroups ops st.mesh⟩)

/-- Export the mesh's weights and immediately transfer them back onto the
same mesh with `max_distance = 0` and no selection restriction; every
exported entry carries both fields, so the re-parsed document is entry
by entry well-formed. -/
def roundTrip (groups : List String) (mesh : List MeshVertex) :
    Option ImportError × MeshState :=
  importExecute false 0
    (.parsed (exportWeights mesh groups).vertexGroups
      ((exportWeights mesh groups).vertices.map
        (fun v => RawVertex.ok v.coord v.weights)))
    ⟨groups, mesh⟩

/-! ## Chain namer: data model (physbone_renamer.py) -/

/-- A host bone: its identifier and its children in host order.  The
selection is a predicate on identifiers. -/
inductive Bone where
  | mk (id : Nat) (children : List Bone)

/-- The identifier of a bone. -/
def Bone.id : Bone → Nat
  | .mk i _ => i

/-- The children of a bone, in host order. -/
def Bone.children : Bone → List Bone
  | .mk _ cs => cs

theorem sizeOf_le_of_sublist {l₁ l₂ : List Bone} (h : l₁.Sublist l₂) :
    sizeOf l₁ ≤ sizeOf l₂ := by
  induction h with
  | slnil => exact le_refl _
  | cons a _ ih => simp only [List.cons.sizeOf_spec]; omega
  | cons₂ a _ ih => simp only [List.cons.sizeOf_spec]; omega

/-- `BONE_OT_rename_hair_chain.get_chain_name`. -/
def getChainName (pre : String) (mainChainNum chainId boneNum : Nat) : String :=
  if pre = "" then
    "_" ++ Nat.repr mainChainNum ++ "_" ++ Nat.repr chainId ++ "_" ++ Nat.repr boneNum
  else
    pre ++ "_" ++ Nat.repr mainChainNum ++ "_" ++ Nat.repr chainId ++ "_" ++ Nat.repr boneNum

/-- One bone renaming performed by the chain namer. -/
structure Assigned where
  boneId : Nat
  main : Nat
  chain : Nat
  num : Nat
  name : String
deriving DecidableEq, Repr

mutual

/-- `BONE_OT_rename_hair_chain.process_bone_chain`: name the bone, then
process its selected children; returns the renamings in call order and
the next available chain id. -/
def processBone (sel : Nat → Bool) (pre : String) (main : Nat) :
    Bone → Nat → Nat → Nat → List Assigned × Nat
  | .mk i cs, chainId, boneNum, next =>
    let r := processChildren sel pre main (cs.filter (fun c => sel c.id))
      chainId boneNum next
    (⟨i, main, chainId, boneNum, getChainName pre main chainId boneNum⟩ :: r.1, r.2)
termination_by b _ _ _ => sizeOf b
decreasing_by
  have h1 : sizeOf (cs.filter (fun c => sel c.id)) ≤ sizeOf cs :=
    sizeOf_le_of_sublist (List.filter_sublist cs)
  simp only [Bone.mk.sizeOf_spec]; omega

/-- The child handling of `process_bone_chain`: no selected children stop
the chain; the first selected child continues the same chain with the
next bone number; every further child starts a new sub-chain. -/
def processChildren (sel : Nat → Bool) (pre : String) (main : Nat) :
    List Bone → Nat → Nat → Nat → List Assigned × Nat
  | [], _, _, next => ([], next)
  | c0 :: rest, chainId, boneNum, next =>
    let r0 := processBone sel pre main c0 chainId (boneNum + 1) next
    let rr := processRest sel pre main rest r0.2
    (r0.1 ++ rr.1, rr.2)
termination_by l _ _ _ => sizeOf l
decreasing_by
  · simp only [List.cons.sizeOf_spec]; omega
  · simp only [List.cons.sizeOf_spec]; omega

/-- The `for child in children[1:]` loop of `process_bone_chain`: each
remaining child starts a sub-chain numbered with the current next chain
id, which the recursive call then advances. -/
def processRest (sel : Nat → Bool) (pre : String) (main : Nat) :
    List Bone → Nat → List Assigned × Nat
  | [], cur => ([], cur)
  | c :: cs, cur =>
    let r1 := processBone sel pre main c cur 1 (cur + 1)
    let r2 := processRest sel pre main cs r1.2
    (r1.1 ++ r2.1, r2.2)
termination_by l _ => sizeOf l
decreasing_by
  · simp only [List.cons.sizeOf_spec]; omega
  · simp only [List.cons.sizeOf_spec]; omega

end

mutual

/-- All bones of a subtree in preorder (the host's iteration order). -/
def flattenBone : Bone → List Bone
  | .mk i cs => .mk i cs :: flattenList cs

/-- All bones of a forest in preorder. -/
def flattenList : List Bone → List Bone
  | [] => []
  | b :: bs => flattenBone b ++ flattenList bs

end

mutual

/-- The selected roots inside a subtree: selected bones whose parent is
absent or unselected (`parentSel` records whether the parent is a
selected bone). -/
def rootsAux (sel : Nat → Bool) (parentSel : Bool) : Bone → List Bone
  | .mk i cs =>
    (if sel i && !parentSel then [Bone.mk i cs] else []) ++
      rootsAuxList sel (sel i) cs

/-- The selected roots inside a forest. -/
def rootsAuxList (sel : Nat → Bool) (parentSel : Bool) : List Bone → List Bone
  | [] => []
  | b :: bs => rootsAux sel parentSel b ++ rootsAuxList sel parentSel bs

end

/-- `context.selected_editable_bones`: the selected bones in host
(preorder) iteration order. -/
def selectedBones (sel : Nat → Bool) (forest : List Bone) : List Bone :=
  (flattenList forest).filter (fun b => sel b.id)

/-- The `root_bones` list of `BONE_OT_rename_hair_chain.execute`:
selected bones without a parent or whose parent is not selected. -/
def rootBones (sel : Nat → Bool) (forest : List Bone) : List Bone :=
  rootsAuxList sel false forest

/-- The validation failures of `BONE_OT_rename_hair_chain.execute`. -/
inductive RenameError where
  | noSelection : RenameError
  | noRoot : RenameError
deriving DecidableEq, Repr

/-- `BONE_OT_rename_hair_chain.execute`: fail on an empty selection, fail
when the selection has no root, otherwise process each root as the start
of a new main chain with an independent counter seeded at 2. -/
def renameExecute (sel : Nat → Bool) (pre : String) (forest : List Bone) :
    Except RenameError (List Assigned) :=
  let selected := selectedBones sel forest
  if selected.isEmpty then .error .noSelection
  else
    let roots := rootBones sel forest
    if roots.isEmpty then .error .noRoot
    else .ok ((roots.enum.map
      (fun ir => (processBone sel pre (ir.1 + 1) ir.2 1 1 2).1)).flatten)

/-! ## Name mapper (name_matcher.py) -/

/-- A Python dict assignment `d[k] = v`: update the entry in place or
append a new one. -/
def dinsert (k v : String) : List (String × String) → List (String × String)
  | [] => [(k, v)]
  | (k', v') :: rest => if k' = k then (k, v) :: rest else (k', v') :: dinsert k v rest

/-- The mapping-construction loop of `ARMATURE_OT_convert_names.execute`:
for each `(role, sourceName)` of the source table in order, look the role
up in the target table and, when the result is a non-empty name, assign
`mapping[sourceName] = targetName`. -/
def buildMapping (src tgt : List (String × String)) : List (String × String) :=
  src.foldl (fun m p =>
    match tgt.lookup p.1 with
    | some t => if t.isEmpty then m else dinsert p.2 t m
    | none => m) []

/-- Rename one node: nodes whose name is a key of the mapping take the
mapped value, all others keep their name. -/
def renameName (m : List (String × String)) (n : String) : String :=
  match m.lookup n with
  | some v => v
  | none => n

/-- The renaming loop of `ARMATURE_OT_convert_names.execute`: every bone
whose name is a mapping key is renamed, in existing order, and the
renamed bones are counted. -/
def applyMapping (m : List (String × String)) (nodes : List String) :
    List String × Nat :=
  (nodes.map (renameName m),
    (nodes.filter (fun n => (m.lookup n).isSome)).length)

theorem lookup_mem {α β : Type} [BEq α] [LawfulBEq α] {l : List (α × β)} {k : α}
    {v : β} (h : l.lookup k = some v) : (k, v) ∈ l := by
  induction l with
  | nil => simp [List.lookup] at h
  | cons p rest ih =>
    obtain ⟨a, b⟩ := p
    by_cases hk : (k == a) = true
    · have hka : k = a := eq_of_beq hk
      subst hka
      simp only [List.lookup, beq_self_eq_true] at h
      simp only [Option.some.injEq] at h
      subst h
      exact List.mem_cons_self _ _
    · have hka : (k == a) = false := by simpa using hk
      simp only [List.lookup, hka] at h
      exact List.mem_cons_of_mem _ (ih h)

theorem lookup_eq_none_iff {α β : Type} [BEq α] [LawfulBEq α] {l : List (α × β)}
    {k : α} : l.lookup k = none ↔ ∀ p ∈ l, p.1 ≠ k := by
  induction l with
  | nil => simp [List.lookup]
  | cons p rest ih =>
    obtain ⟨a, b⟩ := p
    by_cases hk : (k == a) = true
    · have hka : k = a := eq_of_beq hk
      subst hka
      refine iff_of_false (by simp [List.lookup]) ?_
      intro hall
      exact hall (k, b) (List.mem_cons_self _ _) rfl
    · have hka : (k == a) = false := by simpa using hk
      simp only [List.lookup, hka]
      rw [ih]
      constructor
      · intro h q hq
        rcases List.mem_cons.mp hq with h1 | h2
        · subst h1
          intro he
          exact absurd he.symm (by simpa using hka)
        · exact h q h2
      · intro h q hq
        exact h q (List.mem_cons_of_mem _ hq)

/-! ## Helper lemmas: distances and nearest neighbours -/

theorem dist2_nonneg (a b : Point) : 0 ≤ dist2 a b := by
  unfold dist2
  have h1 := mul_self_nonneg (a.1 - b.1)
  have h2 := mul_self_nonneg (a.2.1 - b.2.1)
  have h3 := mul_self_nonneg (a.2.2 - b.2.2)
  linarith

theorem dist2_self (a : Point) : dist2 a a = 0 := by
  simp [dist2]

theorem dist2_eq_zero_iff {a b : Point} : dist2 a b = 0 ↔ a = b := by
  obtain ⟨a1, a2, a3⟩ := a
  obtain ⟨b1, b2, b3⟩ := b
  unfold dist2
  constructor
  · intro h
    have h1 := mul_self_nonneg (a1 - b1)
    have h2 := mul_self_nonneg (a2 - b2)
    have h3 := mul_self_nonneg (a3 - b3)
    have e1 : (a1 - b1) * (a1 - b1) = 0 := by dsimp only at h ⊢; linarith
    have e2 : (a2 - b2) * (a2 - b2) = 0 := by dsimp only at h ⊢; linarith
    have e3 : (a3 - b3) * (a3 - b3) = 0 := by dsimp only at h ⊢; linarith
    have : a1 = b1 := by have := mul_self_eq_zero.mp e1; linarith
    have : a2 = b2 := by have := mul_self_eq_zero.mp e2; linarith
    have : a3 = b3 := by have := mul_self_eq_zero.mp e3; linarith
    simp_all
  · intro h
    obtain ⟨h1, h2, h3⟩ := Prod.mk.injEq .. ▸ h
    simp_all [dist2]

theorem nearestIdx_eq_none_iff {srcs : List WeightedVertex} {p : Point} :
    nearestIdx srcs p = none ↔ srcs = [] := by
  cases srcs with
  | nil => simp [nearestIdx]
  | cons v vs =>
    simp only [nearestIdx, List.cons_ne_nil, iff_false]
    cases h : nearestIdx vs p with
    | none => simp
    | some jd => obtain ⟨j, dj⟩ := jd; dsimp only; split <;> simp

theorem nearestIdx_spec {srcs : List WeightedVertex} {p : Point} {j : Nat} {d : ℚ}
    (h : nearestIdx srcs p = some (j, d)) :
    j < srcs.length ∧ dist2 (srcs.getD j default).coord p = d ∧
      ∀ i, i < srcs.length → d ≤ dist2 (srcs.getD i default).coord p := by
  induction srcs generalizing j d with
  | nil => simp [nearestIdx] at h
  | cons v vs ih =>
    simp only [nearestIdx] at h
    cases hv : nearestIdx vs p with
    | none =>
      rw [hv] at h
      simp only [Option.some.injEq, Prod.mk.injEq] at h
      obtain ⟨hj, hd⟩ := h
      subst hj; subst hd
      have hnil : vs = [] := nearestIdx_eq_none_iff.mp hv
      subst hnil
      refine ⟨by simp, by simp, ?_⟩
      intro i hi
      have hi0 : i = 0 := by simpa using hi
      subst hi0
      simp
    | some jd =>
      obtain ⟨j', dj⟩ := jd
      rw [hv] at h
      dsimp only at h
      obtain ⟨hj', hdj', hmin⟩ := ih hv
      split at h
      case isTrue hlt =>
        simp only [Option.some.injEq, Prod.mk.injEq] at h
        obtain ⟨hj, hd⟩ := h
        subst hj; subst hd
        refine ⟨by simpa using hj', by simpa using hdj', ?_⟩
        intro i hi
        cases i with
        | zero => simpa using le_of_lt hlt
        | succ i' => simpa using hmin i' (by simpa using hi)
      case isFalse hge =>
        simp only [Option.some.injEq, Prod.mk.injEq] at h
        obtain ⟨hj, hd⟩ := h
        subst hj; subst hd
        refine ⟨by simp, by simp, ?_⟩
        intro i hi
        cases i with
        | zero => simp
        | succ i' =>
          have : dj ≤ dist2 (vs.getD i' default).coord p := hmin i' (by simpa using hi)
          have : dist2 v.coord p ≤ dj := le_of_not_lt hge
          simp only [List.getD_cons_succ]
          linarith [hmin i' (by simpa using hi)]

theorem lookup_none_of_not_mem_keys {β : Type} {ops : List (Nat × β)} {i : Nat}
    (h : i ∉ ops.map (fun e => e.1)) : ops.lookup i = none := by
  rw [lookup_eq_none_iff]
  intro p hp hpi
  exact h (List.mem_map.mpr ⟨p, hp, hpi⟩)

theorem applyOps_getD_of_none {groups : List String} {ops : List (Nat × List Weight)}
    {mesh : List MeshVertex} {i : Nat} (h : ops.lookup i = none) :
    (applyOps groups ops mesh).getD i default = mesh.getD i default := by
  rw [List.getD_eq_getElem?_getD, List.getD_eq_getElem?_getD]
  unfold applyOps
  rw [List.getElem?_mapIdx, h]
  cases mesh[i]? <;> rfl

theorem matchTarget_zero_spec {srcs : List WeightedVertex} {p : Point}
    (hne : srcs ≠ []) :
    ∃ j, matchTarget srcs 0 p = some j ∧ j < srcs.length ∧
      ∀ i, i < srcs.length →
        dist2 (srcs.getD j default).coord p ≤ dist2 (srcs.getD i default).coord p := by
  unfold matchTarget
  simp only [lt_irrefl, if_false]
  cases h : nearestIdx srcs p with
  | none => exact absurd (nearestIdx_eq_none_iff.mp h) hne
  | some jd =>
    obtain ⟨j, d⟩ := jd
    obtain ⟨hj, hd, hmin⟩ := nearestIdx_spec h
    exact ⟨j, rfl, hj, fun i hi => hd ▸ hmin i hi⟩

theorem matchTarget_pos_none_iff {srcs : List WeightedVertex} {p : Point} {d : ℚ}
    (hd : 0 < d) (hne : srcs ≠ []) :
    matchTarget srcs d p = none ↔
      ∀ i, i < srcs.length → d * d < dist2 (srcs.getD i default).coord p := by
  unfold matchTarget nearestInRange
  simp only [hd, if_true]
  cases h : nearestIdx srcs p with
  | none => exact absurd (nearestIdx_eq_none_iff.mp h) hne
  | some jd =>
    obtain ⟨j, dj⟩ := jd
    obtain ⟨hj, hdj, hmin⟩ := nearestIdx_spec h
    dsimp only
    constructor
    · intro hnone i hi
      have : ¬ dj ≤ d * d := by
        intro hle
        simp [hle] at hnone
      have h1 : d * d < dj := lt_of_not_le this
      exact lt_of_lt_of_le h1 (hmin i hi)
    · intro hall
      have h1 : d * d < dj := hdj ▸ hall j hj
      simp [not_le.mpr h1]

theorem matchTarget_pos_some_spec {srcs : List WeightedVertex} {p : Point} {d : ℚ}
    {j : Nat} (hd : 0 < d) (h : matchTarget srcs d p = some j) :
    j < srcs.length ∧ dist2 (srcs.getD j default).coord p ≤ d * d ∧
      ∀ i, i < srcs.length →
        dist2 (srcs.getD j default).coord p ≤ dist2 (srcs.getD i default).coord p := by
  unfold matchTarget nearestInRange at h
  simp only [hd, if_true] at h
  cases hn : nearestIdx srcs p with
  | none => rw [hn] at h; simp at h
  | some jd =>
    obtain ⟨j', dj⟩ := jd
    rw [hn] at h
    dsimp only at h
    obtain ⟨hj', hdj', hmin⟩ := nearestIdx_spec hn
    by_cases hle : dj ≤ d * d
    · simp only [hle, if_true, Option.some.injEq] at h
      subst h
      exact ⟨hj', hdj' ▸ hle, fun i hi => hdj' ▸ hmin i hi⟩
    · simp [hle] at h

/-- C2 — for a non-empty source set: with `maxDistance > 0` a target is
skipped exactly when every source point is farther than the radius, and a
match is an in-range source at minimal distance; with `maxDistance = 0`
the target always receives a match at the global minimum distance; a
skipped target appears in no output entry of `transfer` and keeps its
mesh weights unchanged by the apply step. -/
theorem c2_transfer_matching :
    (∀ (srcs : List WeightedVertex) (p : Point) (d : ℚ), srcs ≠ [] →
      (0 < d →
        ((matchTarget srcs d p = none ↔
            ∀ i, i < srcs.length → d * d < dist2 (srcs.getD i default).coord p) ∧
          ∀ j, matchTarget srcs d p = some j →
            j < srcs.length ∧ dist2 (srcs.getD j default).coord p ≤ d * d ∧
              ∀ i, i < srcs.length →
                dist2 (srcs.getD j default).coord p ≤
                  dist2 (srcs.getD i default).coord p)) ∧
      (∃ j, matchTarget srcs 0 p = some j ∧ j < srcs.length ∧
        ∀ i, i < srcs.length →
          dist2 (srcs.getD j default).coord p ≤
            dist2 (srcs.getD i default).coord p)) ∧
    (∀ (f : WeightFile) (targets : List (Nat × Point)) (d : ℚ) (i : Nat) (p : Point),
      (i, p) ∈ targets → matchTarget f.vertices d p = none →
      (targets.map (fun t => t.1)).Nodup →
      i ∉ (transfer f targets d).map (fun e => e.1)) ∧
    (∀ (groups : List String) (ops : List (Nat × List Weight))
      (mesh : List MeshVertex) (i : Nat), i ∉ ops.map (fun e => e.1) →
      ((applyOps groups ops mesh).getD i default).weights =
        ((mesh.getD i default) : MeshVertex).weights) := by
  refine ⟨fun srcs p d hne => ⟨fun hd => ⟨matchTarget_pos_none_iff hd hne,
    fun j hj => matchTarget_pos_some_spec hd hj⟩, matchTarget_zero_spec hne⟩,
    ?_, ?_⟩
  · intro f targets d i p hmem hnone hnd hcontra
    obtain ⟨e, he, hei⟩ := List.mem_map.mp hcontra
    obtain ⟨t, ht, hte⟩ := List.mem_filterMap.mp he
    cases hm : matchTarget f.vertices d t.2 with
    | none => rw [hm] at hte; simp at hte
    | some j =>
      rw [hm] at hte
      simp only [Option.map_some', Option.some.injEq] at hte
      have ht1 : t.1 = i := by rw [← hei, ← hte]
      have : t = (i, p) := by
        exact List.inj_on_of_nodup_map hnd ht hmem ht1
      rw [this] at hm
      rw [hnone] at hm
      exact Option.noConfusion hm
  · intro groups ops mesh i hmem
    rw [applyOps_getD_of_none (lookup_none_of_not_mem_keys hmem)]

/-- A one-vertex source document used to instantiate the transfer
theorems at a concrete input. -/
def wfileA : WeightFile := ⟨["Hip"], [⟨(0, 0, 0), [⟨"Hip", 1⟩]⟩]⟩

/-- Witness for C2 at a concrete input: the target at `(3,0,0)` is skipped
with radius 1 and matched with radius 0. -/
theorem c2_transfer_matching_witness :
    (0 ∉ (transfer wfileA [(0, ((3 : ℚ), 0, 0))] 1).map (fun e => e.1)) ∧
    (∃ j, matchTarget wfileA.vertices 0 ((3 : ℚ), 0, 0) = some j ∧
      j < wfileA.vertices.length ∧
      ∀ i, i < wfileA.vertices.length →
        dist2 (wfileA.vertices.getD j default).coord ((3 : ℚ), 0, 0) ≤
          dist2 (wfileA.vertices.getD i default).coord ((3 : ℚ), 0, 0)) := by
  have h := c2_transfer_matching
  constructor
  · refine h.2.1 wfileA [(0, ((3 : ℚ), 0, 0))] 1 0 ((3 : ℚ), 0, 0) (by simp) ?_ (by simp)
    norm_num [matchTarget, nearestInRange, nearestIdx, dist2, wfileA]
  · exact (h.1 wfileA.vertices ((3 : ℚ), 0, 0) 1 (by simp [wfileA])).2

/-- C8 — when the mapping's values are disjoint from its keys, a second
application of `applyMapping` renames no node: every name produced by the
first application (a mapping value or an untouched original) fails the
key lookup. -/
theorem c8_applyMapping_idempotent (m : List (String × String))
    (nodes : List String) (hdisj : ∀ p ∈ m, ∀ q ∈ m, p.2 ≠ q.1) :
    (applyMapping m (applyMapping m nodes).1).2 = 0 := by
  unfold applyMapping
  simp only [List.length_eq_zero]
  rw [List.filter_eq_nil_iff]
  intro x hx
  obtain ⟨n, _, rfl⟩ := List.mem_map.mp hx
  unfold renameName
  cases hlook : m.lookup n with
  | none => simp [hlook]
  | some v =>
    have hv : (n, v) ∈ m := lookup_mem hlook
    have : m.lookup v = none := by
      rw [lookup_eq_none_iff]
      intro q hq
      exact (hdisj (n, v) hv q hq).symm
    simp [this]

/-- Witness for C8 at a concrete mapping and node list. -/
theorem c8_applyMapping_idempotent_witness :
    (applyMapping [("A", "B")] (applyMapping [("A", "B")] ["A", "C"]).1).2 = 0 :=
  c8_applyMapping_idempotent [("A", "B")] ["A", "C"] (by decide)

/-- The exported vertex list entry by entry: one entry per vertex with a
non-empty positive-weight projection, in mesh order. -/
theorem exportWeights_vertices_eq (mesh : List MeshVertex) (groups : List String) :
    (exportWeights mesh groups).vertices =
      (mesh.filter (fun v => !(vertexExportWeights groups v).isEmpty)).map
        (fun v => ⟨v.coord, vertexExportWeights groups v⟩) := by
  induction mesh with
  | nil => rfl
  | cons v rest ih =>
    simp only [exportWeights, List.filterMap_cons] at ih ⊢
    cases h : (vertexExportWeights groups v).isEmpty with
    | true => simpa [List.filter_cons, h] using ih
    | false => simpa [List.filter_cons, h] using ih

/-- C10 — `exportWeights` omits every vertex without a strictly positive
weight: each emitted entry has a non-empty weight list, and the number of
entries equals the number of mesh vertices whose positive-weight
projection is non-empty (so it can be smaller than the vertex count). -/
theorem c10_export_omits_weightless (mesh : List MeshVertex) (groups : List String) :
    (∀ e ∈ (exportWeights mesh groups).vertices, e.weights ≠ []) ∧
    (exportWeights mesh groups).vertices.length =
      (mesh.filter (fun v => !(vertexExportWeights groups v).isEmpty)).length := by
  rw [exportWeights_vertices_eq]
  refine ⟨?_, by rw [List.length_map]⟩
  intro e he
  obtain ⟨v, hv, rfl⟩ := List.mem_map.mp he
  have hf := (List.mem_filter.mp hv).2
  simp only [Bool.not_eq_true'] at hf
  simpa [List.isEmpty_iff] using hf

/-- The vertex-group order of the examples below. -/
def cexGroups : List String := ["Hip"]

/-- A mesh with one weighted vertex at the origin and one weightless
vertex at distance 1. -/
def cexMesh : List MeshVertex :=
  [⟨(0, 0, 0), false, [⟨"Hip", 1⟩]⟩, ⟨(1, 0, 0), false, []⟩]

/-- Witness for C10: on the concrete two-vertex mesh the export emits
exactly one entry, and that entry's weight list is non-empty. -/
theorem c10_export_omits_weightless_witness :
    (⟨(0, 0, 0), [⟨"Hip", 1⟩]⟩ : WeightedVertex).weights ≠ [] ∧
    (exportWeights cexMesh cexGroups).vertices.length =
      (cexMesh.filter (fun v => !(vertexExportWeights cexGroups v).isEmpty)).length := by
  have h := c10_export_omits_weightless cexMesh cexGroups
  refine ⟨h.1 ⟨(0, 0, 0), [⟨"Hip", 1⟩]⟩ ?_, h.2⟩
  simp only [exportWeights, cexMesh, cexGroups, vertexExportWeights, vgWeight,
    List.filterMap_cons, List.filterMap_nil, List.find?]
  norm_num

/-! ## Name mapper: order (in)dependence of buildMapping -/

theorem dinsert_lookup (k v : String) (m : List (String × String)) (s : String) :
    (dinsert k v m).lookup s = if s = k then some v else m.lookup s := by
  induction m with
  | nil =>
    by_cases h : s = k
    · simp [dinsert, List.lookup, h]
    · simp [dinsert, List.lookup, h, beq_eq_false_iff_ne.mpr h]
  | cons p rest ih =>
    obtain ⟨a, b⟩ := p
    by_cases hak : a = k
    · subst hak
      by_cases hsa : s = a
      · simp [dinsert, List.lookup, hsa]
      · simp [dinsert, List.lookup, hsa, beq_eq_false_iff_ne.mpr hsa]
    · by_cases hsa : s = a
      · have hsk : ¬ s = k := by rw [hsa]; exact hak
        simp [dinsert, List.lookup, hak, hsa, hsk]
      · simp [dinsert, List.lookup, hak, beq_eq_false_iff_ne.mpr hsa, ih]

/-- The contribution of one source-table row: the target name for the
row's role, unless the role is missing from the target table or maps to
the empty string (both skipped by the source loop). -/
def roleContrib (tgt : List (String × String)) (p : String × String) : Option String :=
  match tgt.lookup p.1 with
  | some t => if t.isEmpty then none else some t
  | none => none

theorem buildMapping_step_eq (src tgt : List (String × String)) :
    buildMapping src tgt = src.foldl (fun m p =>
      match roleContrib tgt p with
      | some t => dinsert p.2 t m
      | none => m) [] := by
  unfold buildMapping
  congr 1
  funext m p
  unfold roleContrib
  cases h : tgt.lookup p.1 with
  | none => rfl
  | some t => by_cases ht : t.isEmpty <;> simp [ht]

theorem buildMapping_lookup (src tgt : List (String × String)) (s : String) :
    (buildMapping src tgt).lookup s =
      match src.reverse.find? (fun p => p.2 == s && (roleContrib tgt p).isSome) with
      | some p => roleContrib tgt p
      | none => none := by
  rw [buildMapping_step_eq]
  induction src using List.reverseRecOn with
  | nil => simp [List.lookup]
  | append_singleton l p ih =>
    rw [List.foldl_append, List.foldl_cons, List.foldl_nil, List.reverse_append]
    simp only [List.reverse_singleton, List.singleton_append, List.find?_cons]
    cases hpred : (p.2 == s && (roleContrib tgt p).isSome) with
    | true =>
      obtain ⟨hps, hsome⟩ := Bool.and_eq_true_iff.mp hpred
      obtain ⟨t, ht⟩ := Option.isSome_iff_exists.mp hsome
      rw [ht]
      have hps' : p.2 = s := eq_of_beq hps
      rw [dinsert_lookup]
      simp [hps'.symm, ht]
    | false =>
      cases hc : roleContrib tgt p with
      | none => exact ih
      | some t =>
        have hps : (p.2 == s) = false := by
          rcases Bool.and_eq_false_iff.mp hpred with h | h
          · exact h
          · rw [hc] at h; simp at h
        rw [dinsert_lookup]
        have : ¬ s = p.2 := fun h => by simp [h] at hps
        rw [if_neg this]
        exact ih

theorem filter_value_singleton {src : List (String × String)} {s : String}
    (hnd : (src.map (fun p => p.2)).Nodup) {pred : (String × String) → Bool}
    (hpred : ∀ p, pred p = true → p.2 = s) : (src.filter pred).length ≤ 1 := by
  cases hF : src.filter pred with
  | nil => simp
  | cons a t =>
    cases t with
    | nil => simp
    | cons b t2 =>
      exfalso
      have hnodup : ((src.filter pred).map (fun p => p.2)).Nodup :=
        hnd.sublist (List.Sublist.map _ (List.filter_sublist src))
      rw [hF] at hnodup
      have ha : pred a := (List.mem_filter.mp (hF ▸ List.mem_cons_self a (b :: t2))).2
      have hb : pred b := (List.mem_filter.mp
        (hF ▸ List.mem_cons_of_mem a (List.mem_cons_self b t2))).2
      have hab : a.2 = b.2 := (hpred a ha).trans (hpred b hb).symm
      simp only [List.map_cons, List.nodup_cons, List.mem_cons] at hnodup
      exact hnodup.1 (Or.inl hab)

/-- C5 counterexample — with role keys unique but two roles sharing the
source name "X", permuting the source table changes the resulting
mapping: the two iteration orders give the dictionary different values
at "X". -/
theorem c5_counterexample :
    [("roleA", "X"), ("roleB", "X")].Perm [("roleB", "X"), ("roleA", "X")] ∧
    (buildMapping [("roleA", "X"), ("roleB", "X")]
      [("roleA", "T1"), ("roleB", "T2")]).lookup "X" = some "T2" ∧
    (buildMapping [("roleB", "X"), ("roleA", "X")]
      [("roleA", "T1"), ("roleB", "T2")]).lookup "X" = some "T1" ∧
    (buildMapping [("roleA", "X"), ("roleB", "X")]
        [("roleA", "T1"), ("roleB", "T2")]).lookup "X" ≠
      (buildMapping [("roleB", "X"), ("roleA", "X")]
        [("roleA", "T1"), ("roleB", "T2")]).lookup "X" := by
  refine ⟨?_, by decide, by decide, by decide⟩
  decide

/-- C5 (amended) — when no two roles of the source table share a source
name, `buildMapping` is order-independent: permuting the source table's
iteration order leaves the resulting mapping extensionally unchanged. -/
theorem c5_buildMapping_amended (src src' tgt : List (String × String))
    (hperm : src.Perm src') (hnd : (src.map (fun p => p.2)).Nodup) :
    ∀ s, (buildMapping src tgt).lookup s = (buildMapping src' tgt).lookup s := by
  intro s
  rw [buildMapping_lookup, buildMapping_lookup]
  have hpermF := hperm.filter (fun p => p.2 == s && (roleContrib tgt p).isSome)
  have hpred : ∀ p : String × String,
      (fun p => p.2 == s && (roleContrib tgt p).isSome) p = true → p.2 = s := by
    intro p hp
    exact eq_of_beq (Bool.and_eq_true_iff.mp hp).1
  have key : ∀ l : List (String × String),
      l.filter (fun p => p.2 == s && (roleContrib tgt p).isSome) = [] →
      l.reverse.find? (fun p => p.2 == s && (roleContrib tgt p).isSome) = none := by
    intro l hl
    rw [List.find?_eq_none]
    intro x hx
    have := List.filter_eq_nil_iff.mp hl x (List.mem_reverse.mp hx)
    simpa using this
  have key2 : ∀ (l : List (String × String)) (a : String × String),
      l.filter (fun p => p.2 == s && (roleContrib tgt p).isSome) = [a] →
      l.reverse.find? (fun p => p.2 == s && (roleContrib tgt p).isSome) = some a := by
    intro l a hl
    have hmemF : a ∈ l.filter (fun p => p.2 == s && (roleContrib tgt p).isSome) := by
      rw [hl]; exact List.mem_singleton_self a
    have hmem : a ∈ l.reverse := List.mem_reverse.mpr (List.mem_of_mem_filter hmemF)
    have hpa := (List.mem_filter.mp hmemF).2
    have hsome : (l.reverse.find?
        (fun p => p.2 == s && (roleContrib tgt p).isSome)).isSome :=
      List.find?_isSome.mpr ⟨a, hmem, hpa⟩
    obtain ⟨q, hq⟩ := Option.isSome_iff_exists.mp hsome
    have hq1 := List.find?_some hq
    have hq2 := List.mem_of_find?_eq_some hq
    have : q ∈ l.filter (fun p => p.2 == s && (roleContrib tgt p).isSome) :=
      List.mem_filter.mpr ⟨List.mem_reverse.mp hq2, hq1⟩
    rw [hl] at this
    rw [hq, List.mem_singleton.mp this]
  cases hF : src.filter (fun p => p.2 == s && (roleContrib tgt p).isSome) with
  | nil =>
    have hF' : src'.filter (fun p => p.2 == s && (roleContrib tgt p).isSome) = [] := by
      rw [hF] at hpermF
      exact hpermF.symm.eq_nil
    rw [key src hF, key src' hF']
  | cons a t =>
    have hlen := filter_value_singleton hnd hpred
    rw [hF] at hlen
    have ht : t = [] := by
      simp only [List.length_cons] at hlen
      exact List.eq_nil_of_length_eq_zero (by omega)
    subst ht
    have hF' : src'.filter (fun p => p.2 == s && (roleContrib tgt p).isSome) = [a] := by
      rw [hF] at hpermF
      exact (List.perm_singleton.mp hpermF.symm)
    rw [key2 src a hF, key2 src' a hF']

/-- Witness for the amended C5 at a concrete permuted pair of tables. -/
theorem c5_buildMapping_amended_witness :
    (buildMapping [("roleA", "X"), ("roleB", "Y")]
      [("roleA", "T1"), ("roleB", "T2")]).lookup "X" =
    (buildMapping [("roleB", "Y"), ("roleA", "X")]
      [("roleA", "T1"), ("roleB", "T2")]).lookup "X" :=
  c5_buildMapping_amended [("roleA", "X"), ("roleB", "Y")]
    [("roleB", "Y"), ("roleA", "X")] [("roleA", "T1"), ("roleB", "T2")]
    (by decide) (by decide) "X"

theorem setWeight_append {acc : List Weight} {b : String} {w : ℚ}
    (h : b ∉ acc.map (fun x => x.bone)) : setWeight acc b w = acc ++ [⟨b, w⟩] := by
  induction acc with
  | nil => rfl
  | cons x xs ih =>
    simp only [List.map_cons, List.mem_cons] at h
    push_neg at h
    have hxb : ¬ x.bone = b := fun he => h.1 he.symm
    simp only [setWeight, if_neg hxb, List.cons_append, List.cons.injEq, true_and]
    exact ih h.2

theorem applyWeights_foldl_eq {groups : List String} :
    ∀ (ws acc : List Weight),
      ((acc ++ ws).map (fun x => x.bone)).Nodup →
      (∀ w ∈ ws, groups.contains w.bone = true) →
      ws.foldl (fun acc w =>
        if groups.contains w.bone then setWeight acc w.bone w.weight else acc) acc =
        acc ++ ws := by
  intro ws
  induction ws with
  | nil => intro acc _ _; simp
  | cons w rest ih =>
    intro acc hnd hmem
    rw [List.foldl_cons]
    rw [if_pos (hmem w (List.mem_cons_self w rest))]
    have hnotin : w.bone ∉ acc.map (fun x => x.bone) := by
      intro hin
      rw [List.map_append] at hnd
      obtain ⟨x, hx, hxb⟩ := List.mem_map.mp hin
      have h1 := (List.nodup_append.mp hnd).2.2
      exact h1 hin (by simp)
    rw [setWeight_append hnotin]
    have : (⟨w.bone, w.weight⟩ : Weight) = w := rfl
    rw [this]
    have heq : acc ++ w :: rest = (acc ++ [w]) ++ rest := by simp
    rw [heq]
    refine ih (acc ++ [w]) ?_ (fun x hx => hmem x (List.mem_cons_of_mem w hx))
    have : (acc ++ [w]) ++ rest = acc ++ w :: rest := by simp
    rw [this]
    exact hnd

theorem applyWeights_self {groups : List String} {ws : List Weight}
    (hnd : (ws.map (fun x => x.bone)).Nodup)
    (hmem : ∀ w ∈ ws, groups.contains w.bone = true) :
    applyWeights groups ws = ws := by
  unfold applyWeights
  have := applyWeights_foldl_eq ws [] (by simpa using hnd) hmem
  simpa using this

theorem vertexExportWeights_bones_sublist (groups : List String) (v : MeshVertex) :
    ((vertexExportWeights groups v).map (fun x => x.bone)).Sublist groups := by
  induction groups with
  | nil => simp [vertexExportWeights]
  | cons g gs ih =>
    simp only [vertexExportWeights, List.filterMap_cons] at ih ⊢
    cases h : vgWeight v g with
    | none => exact ih.cons g
    | some w =>
      by_cases hw : 0 < w
      · simp only [hw, if_pos]
        simpa using ih.cons₂ g
      · simp only [hw, if_neg, if_false]
        exact ih.cons g

theorem vertexExportWeights_mem_bone {groups : List String} {v : MeshVertex}
    {w : Weight} (h : w ∈ vertexExportWeights groups v) : w.bone ∈ groups := by
  obtain ⟨g, hg, hw⟩ := List.mem_filterMap.mp h
  cases hvg : vgWeight v g with
  | none => rw [hvg] at hw; simp at hw
  | some q =>
    rw [hvg] at hw
    by_cases hq : 0 < q
    · simp only [hq, if_pos, Option.some.injEq] at hw
      rw [← hw]
      exact hg
    · simp [hq] at hw

theorem enumFrom_assoc_lookup {α β : Type} (f : α → β) :
    ∀ (l : List α) (n i : Nat),
      ((List.enumFrom n l).map (fun iv => (iv.1, f iv.2))).lookup (n + i) =
        (l[i]?).map f := by
  intro l
  induction l with
  | nil => intro n i; simp [List.lookup]
  | cons a l ih =>
    intro n i
    cases i with
    | zero =>
      simp [List.enumFrom, List.lookup]
    | succ i' =>
      have hne : ((n + (i' + 1) == n) = false) := by
        simp only [beq_eq_false_iff_ne, ne_eq]
        omega
      simp only [List.enumFrom, List.map_cons, List.lookup, hne]
      have : n + (i' + 1) = (n + 1) + i' := by omega
      rw [this, ih (n + 1) i']
      simp

theorem matchTarget_self {srcs : List WeightedVertex} {k : Nat}
    (hk : k < srcs.length) (hnd : (srcs.map (fun v => v.coord)).Nodup) :
    matchTarget srcs 0 ((srcs.getD k default).coord) = some k := by
  have hne : srcs ≠ [] := by
    intro h
    rw [h] at hk
    simp at hk
  unfold matchTarget
  simp only [lt_irrefl, if_false]
  cases h : nearestIdx srcs ((srcs.getD k default).coord) with
  | none => exact absurd (nearestIdx_eq_none_iff.mp h) hne
  | some jd =>
    obtain ⟨j, d⟩ := jd
    obtain ⟨hj, hd, hmin⟩ := nearestIdx_spec h
    have hle : d ≤ 0 := by
      have := hmin k hk
      rwa [dist2_self] at this
    have hge : 0 ≤ d := hd ▸ dist2_nonneg _ _
    have hd0 : d = 0 := le_antisymm hle hge
    have hceq : (srcs.getD j default).coord = (srcs.getD k default).coord :=
      dist2_eq_zero_iff.mp (hd ▸ hd0)
    have hjk : j = k := by
      have hsnd : srcs.Nodup := List.Nodup.of_map _ hnd
      have hinj := List.nodup_iff_injective_get.mp hsnd
      have hel : srcs.get ⟨j, hj⟩ = srcs.get ⟨k, hk⟩ := by
        apply List.inj_on_of_nodup_map hnd (List.get_mem _ _ _) (List.get_mem _ _ _)
        rw [List.get_eq_getElem, List.get_eq_getElem,
          ← List.getD_eq_getElem srcs default hj, ← List.getD_eq_getElem srcs default hk]
        exact hceq
      exact congrArg Fin.val (hinj hel)
    rw [hjk]
    rfl

theorem map_ok_not_bad (l : List WeightedVertex) :
    ((l.map (fun v => RawVertex.ok v.coord v.weights)).any
      fun rv => rv.isBad) = false := by
  induction l with
  | nil => rfl
  | cons v vs ih => simp [RawVertex.isBad, ih]

theorem filterMap_toVertex_map_ok (l : List WeightedVertex) :
    (l.map (fun v => RawVertex.ok v.coord v.weights)).filterMap
      RawVertex.toVertex = l := by
  induction l with
  | nil => rfl
  | cons v vs ih => simp [RawVertex.toVertex, ih]

/-- C1 (amended) — the export/transfer round trip is the identity for
meshes satisfying the exchange-format invariants: distinct vertex
positions, and every vertex's stored weight list equal to its non-empty
positive-weight projection in (duplicate-free) group order.  Without
these hypotheses the round trip can rewrite weights (see the
counterexample): a weightless vertex is omitted from the export but
still matched at distance 0 on import. -/
theorem c1_roundtrip_amended (groups : List String) (mesh : List MeshVertex)
    (hg : groups.Nodup) (hne : mesh ≠ [])
    (hcoords : (mesh.map (fun v => v.coord)).Nodup)
    (hw : ∀ v ∈ mesh, v.weights = vertexExportWeights groups v ∧ v.weights ≠ []) :
    roundTrip groups mesh = (none, ⟨groups, mesh⟩) := by
  have hsrcs : (exportWeights mesh groups).vertices =
      mesh.map (fun v => ⟨v.coord, v.weights⟩) := by
    rw [exportWeights_vertices_eq]
    rw [List.filter_eq_self.mpr ?_]
    · exact List.map_congr_left (fun v hv => by rw [(hw v hv).1])
    · intro v hv
      have h2 := (hw v hv).2
      rw [(hw v hv).1] at h2
      simpa [List.isEmpty_iff] using h2
  have hvne : (exportWeights mesh groups).vertices.isEmpty = false := by
    rw [hsrcs]
    have hmapne : mesh.map (fun v => (⟨v.coord, v.weights⟩ : WeightedVertex)) ≠ [] :=
      fun h => hne (List.map_eq_nil_iff.mp h)
    simpa [List.isEmpty_iff] using hmapne
  have hfg : groups ++ (exportWeights mesh groups).vertexGroups.filter
      (fun g => !groups.contains g) = groups := by
    have hvg : (exportWeights mesh groups).vertexGroups = groups := rfl
    rw [hvg]
    have hf : groups.filter (fun g => !groups.contains g) = [] := by
      rw [List.filter_eq_nil_iff]
      intro g hg2
      have hc : groups.contains g = true := List.elem_eq_true_of_mem hg2
      rw [hc]
      simp
    rw [hf, List.append_nil]
  have htargets : importTargets false mesh =
      mesh.enum.map (fun iv => (iv.1, iv.2.coord)) := by
    unfold importTargets
    congr 1
    apply List.filter_eq_self.mpr
    intro iv _
    simp
  have hops : transfer (exportWeights mesh groups) (importTargets false mesh) 0 =
      mesh.enum.map (fun iv => (iv.1, iv.2.weights)) := by
    rw [htargets]
    unfold transfer
    rw [hsrcs, List.filterMap_map]
    have hcoords2 : ((mesh.map (fun v => (⟨v.coord, v.weights⟩ : WeightedVertex))).map
        (fun v => v.coord)).Nodup := by
      rw [List.map_map]
      exact hcoords
    have hcong : ∀ iv ∈ mesh.enum,
        ((fun t : Nat × Point =>
            (matchTarget (mesh.map (fun v => (⟨v.coord, v.weights⟩ : WeightedVertex)))
              0 t.2).map (fun j =>
                (t.1, ((mesh.map (fun v => (⟨v.coord, v.weights⟩ : WeightedVertex))).getD
                  j default).weights))) ∘
          (fun iv : Nat × MeshVertex => (iv.1, iv.2.coord))) iv =
          (some ∘ (fun iv : Nat × MeshVertex => (iv.1, iv.2.weights))) iv := by
      intro iv hiv
      obtain ⟨hlt, hel⟩ := List.getElem?_eq_some.mp (List.mem_enum_iff_getElem?.mp hiv)
      have hmeshD : mesh.getD iv.1 default = iv.2 := by
        rw [List.getD_eq_getElem mesh default hlt, hel]
      have hdflt : (default : WeightedVertex) =
          (fun v : MeshVertex => (⟨v.coord, v.weights⟩ : WeightedVertex)) default := rfl
      have hsrcsD : (mesh.map (fun v => (⟨v.coord, v.weights⟩ : WeightedVertex))).getD
          iv.1 default = ⟨iv.2.coord, iv.2.weights⟩ := by
        rw [hdflt, List.getD_map, hmeshD]
      have hlt2 : iv.1 <
          (mesh.map (fun v => (⟨v.coord, v.weights⟩ : WeightedVertex))).length := by
        rw [List.length_map]
        exact hlt
      have hmt := matchTarget_self hlt2 hcoords2
      rw [hsrcsD] at hmt
      simp only [Function.comp_apply]
      rw [hmt]
      simp only [Option.map_some', Option.some.injEq, Function.comp_apply]
      rw [hsrcsD]
    rw [List.filterMap_congr hcong, List.filterMap_eq_map]
  have happly : applyOps groups (mesh.enum.map (fun iv => (iv.1, iv.2.weights)))
      mesh = mesh := by
    apply List.ext_getElem?
    intro n
    unfold applyOps
    rw [List.getElem?_mapIdx]
    cases hn : mesh[n]? with
    | none => rfl
    | some v =>
      have hlook : (mesh.enum.map
          (fun iv : Nat × MeshVertex => (iv.1, iv.2.weights))).lookup n =
          some v.weights := by
        have h0 := enumFrom_assoc_lookup (fun v : MeshVertex => v.weights) mesh 0 n
        rw [← List.enum_eq_enumFrom, Nat.zero_add] at h0
        rw [h0, hn]
        rfl
      obtain ⟨hlt, hel⟩ := List.getElem?_eq_some.mp hn
      have hv : v ∈ mesh := hel ▸ List.getElem_mem hlt
      have hvw := (hw v hv).1
      have hbnd : (v.weights.map (fun x => x.bone)).Nodup := by
        rw [hvw]
        exact hg.sublist (vertexExportWeights_bones_sublist groups v)
      have hbmem : ∀ w ∈ v.weights, groups.contains w.bone = true := by
        intro w hw2
        rw [hvw] at hw2
        exact List.elem_eq_true_of_mem (vertexExportWeights_mem_bone hw2)
      simp only [Option.map_some', hlook, applyWeights_self hbnd hbmem]
  have hvne2 : ((exportWeights mesh groups).vertices.map
      (fun v => RawVertex.ok v.coord v.weights)).isEmpty = false := by
    rw [hsrcs]
    simp [List.isEmpty_iff, List.map_eq_nil_iff, hne]
  have hfile : ((exportWeights mesh groups).vertices.map
      (fun v => RawVertex.ok v.coord v.weights)).filterMap RawVertex.toVertex =
      (exportWeights mesh groups).vertices := filterMap_toVertex_map_ok _
  have hetafile : (⟨(exportWeights mesh groups).vertexGroups,
      (exportWeights mesh groups).vertices⟩ : WeightFile) =
      exportWeights mesh groups := rfl
  unfold roundTrip importExecute
  rw [if_neg (by simp)]
  simp only [hvne2, Bool.false_eq_true, if_false, hfg,
    map_ok_not_bad (exportWeights mesh groups).vertices, hfile, hetafile,
    hops, happly]

/-- C1 counterexample — on a mesh with one weighted vertex and one
weightless vertex at distinct positions, the round trip with
`maxDistance = 0` is not the identity: the export omits the weightless
vertex, the unrestricted nearest query then matches it to the weighted
one, and the apply step rewrites its (originally empty) weight list. -/
theorem c1_roundtrip_counterexample :
    (cexMesh.getD 0 default).weights ≠ [] ∧
    (cexMesh.getD 1 default).weights = [] ∧
    ((roundTrip cexGroups cexMesh).2.mesh.getD 1 default).weights = [⟨"Hip", 1⟩] ∧
    (roundTrip cexGroups cexMesh).2.mesh ≠ cexMesh := by
  decide

/-- Witness for the amended C1 at a concrete one-vertex mesh. -/
theorem c1_roundtrip_amended_witness :
    roundTrip ["Hip"] [⟨(0, 0, 0), false, [⟨"Hip", 1⟩]⟩] =
      (none, ⟨["Hip"], [⟨(0, 0, 0), false, [⟨"Hip", 1⟩]⟩]⟩) := by
  apply c1_roundtrip_amended
  · simp
  · simp
  · simp
  · intro v hv
    simp only [List.mem_singleton] at hv
    subst hv
    constructor
    · norm_num [vertexExportWeights, vgWeight, List.find?, List.filterMap_cons,
        List.filterMap_nil, beq_self_eq_true, Option.map_some']
    · simp

/-! ## Chain namer: chain-id invariants -/

theorem Bone.strongInd (P : Bone → Prop)
    (h : ∀ i cs, (∀ c, c ∈ cs → P c) → P (Bone.mk i cs)) : ∀ b, P b := by
  have key : ∀ n b, sizeOf b ≤ n → P b := by
    intro n
    induction n with
    | zero =>
      intro b hb
      cases b with
      | mk i cs => simp [Bone.mk.sizeOf_spec] at hb
    | succ n ih =>
      intro b hb
      cases b with
      | mk i cs =>
        refine h i cs (fun c hc => ih c ?_)
        have hlt := List.sizeOf_lt_of_mem hc
        simp only [Bone.mk.sizeOf_spec] at hb
        omega
  exact fun b => key (sizeOf b) b (le_refl _)

/-- The chain ids at which chains start: the `chain` fields of the
assignments carrying bone number 1. -/
def chainStarts (as' : List Assigned) : List Nat :=
  (as'.filter (fun a => a.num == 1)).map (fun a => a.chain)

theorem chainStarts_append (l1 l2 : List Assigned) :
    chainStarts (l1 ++ l2) = chainStarts l1 ++ chainStarts l2 := by
  simp [chainStarts]

/-- The example tree of C3: a root with two selected children, the second
of which has two selected children of its own. -/
def c3tree : Bone := .mk 0 [.mk 1 [], .mk 2 [.mk 3 [], .mk 4 []]]

/-- The chain-id invariant of `process_bone_chain`: starting below the
next available chain id with a bone number of at least 1, the next
available id never decreases, the chain ids of chain starts are strictly
increasing in depth-first order, and every start is either the current
chain (at bone number 1) or a fresh id from the available range. -/
def ChainInv (b : Bone) : Prop :=
  ∀ (sel : Nat → Bool) (pre : String) (main chainId boneNum next : Nat),
    chainId < next → 1 ≤ boneNum →
    next ≤ (processBone sel pre main b chainId boneNum next).2 ∧
    List.Pairwise (· < ·)
      (chainStarts (processBone sel pre main b chainId boneNum next).1) ∧
    ∀ c ∈ chainStarts (processBone sel pre main b chainId boneNum next).1,
      (boneNum = 1 ∧ c = chainId) ∨
        (next ≤ c ∧ c < (processBone sel pre main b chainId boneNum next).2)

theorem processRest_inv (sel : Nat → Bool) (pre : String) (main : Nat)
    (l : List Bone) (hP : ∀ c ∈ l, ChainInv c) :
    ∀ cur, cur ≤ (processRest sel pre main l cur).2 ∧
      List.Pairwise (· < ·) (chainStarts (processRest sel pre main l cur).1) ∧
      ∀ c ∈ chainStarts (processRest sel pre main l cur).1,
        cur ≤ c ∧ c < (processRest sel pre main l cur).2 := by
  induction l with
  | nil => intro cur; simp [processRest, chainStarts]
  | cons c cs ih =>
    intro cur
    have hc := hP c (List.mem_cons_self c cs) sel pre main cur 1 (cur + 1)
      (by omega) (by omega)
    obtain ⟨h1, hpair1, hbound1⟩ := hc
    have hbound1' : ∀ x ∈ chainStarts (processBone sel pre main c cur 1 (cur + 1)).1,
        cur ≤ x ∧ x < (processBone sel pre main c cur 1 (cur + 1)).2 := by
      intro x hx
      rcases hbound1 x hx with ⟨_, hxe⟩ | ⟨hge, hlt⟩
      · subst hxe
        exact ⟨le_refl _, by omega⟩
      · exact ⟨by omega, hlt⟩
    obtain ⟨h2, hpair2, hbound2⟩ :=
      ih (fun d hd => hP d (List.mem_cons_of_mem c hd))
        (processBone sel pre main c cur 1 (cur + 1)).2
    have heq : processRest sel pre main (c :: cs) cur =
        ((processBone sel pre main c cur 1 (cur + 1)).1 ++
          (processRest sel pre main cs
            (processBone sel pre main c cur 1 (cur + 1)).2).1,
         (processRest sel pre main cs
            (processBone sel pre main c cur 1 (cur + 1)).2).2) := by
      simp [processRest]
    rw [heq]
    refine ⟨by omega, ?_, ?_⟩
    · rw [chainStarts_append, List.pairwise_append]
      refine ⟨hpair1, hpair2, ?_⟩
      intro x hx y hy
      have hxb := hbound1' x hx
      have hyb := hbound2 y hy
      omega
    · intro x hx
      rw [chainStarts_append, List.mem_append] at hx
      rcases hx with hx | hx
      · have := hbound1' x hx
        omega
      · have := hbound2 x hx
        omega

theorem processChildren_inv (sel : Nat → Bool) (pre : String) (main : Nat)
    (l : List Bone) (hP : ∀ c ∈ l, ChainInv c) :
    ∀ chainId boneNum next, chainId < next → 1 ≤ boneNum →
      next ≤ (processChildren sel pre main l chainId boneNum next).2 ∧
      List.Pairwise (· < ·)
        (chainStarts (processChildren sel pre main l chainId boneNum next).1) ∧
      ∀ c ∈ chainStarts (processChildren sel pre main l chainId boneNum next).1,
        next ≤ c ∧ c < (processChildren sel pre main l chainId boneNum next).2 := by
  intro chainId boneNum next hlt hbn
  cases l with
  | nil => simp [processChildren, chainStarts]
  | cons c0 rest =>
    have hc0 := hP c0 (List.mem_cons_self c0 rest) sel pre main chainId
      (boneNum + 1) next hlt (by omega)
    obtain ⟨h0, hpair0, hbound0⟩ := hc0
    have hbound0' : ∀ x ∈ chainStarts
        (processBone sel pre main c0 chainId (boneNum + 1) next).1,
        next ≤ x ∧ x < (processBone sel pre main c0 chainId (boneNum + 1) next).2 := by
      intro x hx
      rcases hbound0 x hx with ⟨hb, _⟩ | h
      · omega
      · exact h
    obtain ⟨h2, hpair2, hbound2⟩ := processRest_inv sel pre main rest
      (fun d hd => hP d (List.mem_cons_of_mem c0 hd))
      (processBone sel pre main c0 chainId (boneNum + 1) next).2
    have heq : processChildren sel pre main (c0 :: rest) chainId boneNum next =
        ((processBone sel pre main c0 chainId (boneNum + 1) next).1 ++
          (processRest sel pre main rest
            (processBone sel pre main c0 chainId (boneNum + 1) next).2).1,
         (processRest sel pre main rest
            (processBone sel pre main c0 chainId (boneNum + 1) next).2).2) := by
      simp [processChildren]
    rw [heq]
    refine ⟨by omega, ?_, ?_⟩
    · rw [chainStarts_append, List.pairwise_append]
      refine ⟨hpair0, hpair2, ?_⟩
      intro x hx y hy
      have hxb := hbound0' x hx
      have hyb := hbound2 y hy
      omega
    · intro x hx
      rw [chainStarts_append, List.mem_append] at hx
      rcases hx with hx | hx
      · have := hbound0' x hx
        omega
      · have := hbound2 x hx
        omega

theorem processBone_chainInv : ∀ b, ChainInv b := by
  apply Bone.strongInd
  intro i cs hcs
  intro sel pre main chainId boneNum next hlt hbn
  have hmem : ∀ c ∈ cs.filter (fun c => sel c.id), ChainInv c :=
    fun c hc => hcs c (List.mem_of_mem_filter hc)
  obtain ⟨h1, h2, h3⟩ := processChildren_inv sel pre main
    (cs.filter (fun c => sel c.id)) hmem chainId boneNum next hlt hbn
  have heq : processBone sel pre main (Bone.mk i cs) chainId boneNum next =
      (⟨i, main, chainId, boneNum, getChainName pre main chainId boneNum⟩ ::
        (processChildren sel pre main (cs.filter (fun c => sel c.id))
          chainId boneNum next).1,
       (processChildren sel pre main (cs.filter (fun c => sel c.id))
          chainId boneNum next).2) := by
    simp [processBone]
  rw [heq]
  by_cases hb1 : boneNum = 1
  · subst hb1
    have hcs1 : chainStarts (⟨i, main, chainId, 1,
        getChainName pre main chainId 1⟩ ::
        (processChildren sel pre main (cs.filter (fun c => sel c.id))
          chainId 1 next).1) =
        chainId :: chainStarts (processChildren sel pre main
          (cs.filter (fun c => sel c.id)) chainId 1 next).1 := by
      simp [chainStarts]
    rw [hcs1]
    refine ⟨h1, ?_, ?_⟩
    · rw [List.pairwise_cons]
      refine ⟨fun x hx => ?_, h2⟩
      have := h3 x hx
      omega
    · intro c hc
      rcases List.mem_cons.mp hc with hc | hc
      · exact Or.inl ⟨rfl, hc⟩
      · have := h3 c hc
        omega
  · have hcs1 : chainStarts (⟨i, main, chainId, boneNum,
        getChainName pre main chainId boneNum⟩ ::
        (processChildren sel pre main (cs.filter (fun c => sel c.id))
          chainId boneNum next).1) =
        chainStarts (processChildren sel pre main
          (cs.filter (fun c => sel c.id)) chainId boneNum next).1 := by
      simp [chainStarts, hb1]
    rw [hcs1]
    refine ⟨h1, h2, ?_⟩
    intro c hc
    have := h3 c hc
    omega

/-- C3 — sub-chain ids are assigned depth-first with a per-root counter
seeded at 2: in any root subtree the chain ids at which chains start are
pairwise distinct (never reused), and on the concrete two-child example
the ids are 1 (root through its first child), 2 (second child) and 3
(the branch encountered depth-first below chain 2). -/
theorem c3_chain_ids :
    (∀ (sel : Nat → Bool) (pre : String) (main : Nat) (b : Bone),
      (chainStarts (processBone sel pre main b 1 1 2).1).Nodup) ∧
    ((processBone (fun _ => true) "" 1 c3tree 1 1 2).1.map (fun a => a.chain) =
      [1, 1, 2, 2, 3]) ∧
    (chainStarts (processBone (fun _ => true) "" 1 c3tree 1 1 2).1 = [1, 2, 3]) := by
  refine ⟨?_, ?_, ?_⟩
  · intro sel pre main b
    have h := processBone_chainInv b sel pre main 1 1 2 (by omega) (by omega)
    exact h.2.1.imp Nat.ne_of_lt
  · simp [c3tree, processBone, processChildren, processRest]
  · simp [c3tree, chainStarts, processBone, processChildren, processRest]

/-! ## Chain namer: selections forming an unbranched chain -/

theorem mem_flattenList {x : Bone} :
    ∀ {l : List Bone}, x ∈ flattenList l ↔ ∃ c ∈ l, x ∈ flattenBone c := by
  intro l
  induction l with
  | nil => simp [flattenList]
  | cons c cs ih => simp [flattenList, ih]

/-- A selection forms an unbranched chain of `n` bones below `b`: every
bone of the chain has exactly one selected child (the next bone of the
chain) except the last, which has none.  Unselected children and
arbitrary bone ids are allowed. -/
inductive SelChain (sel : Nat → Bool) : Bone → Nat → Prop where
  | last : ∀ b : Bone, b.children.filter (fun c => sel c.id) = [] →
      SelChain sel b 1
  | step : ∀ (b c : Bone) (n : Nat),
      b.children.filter (fun c => sel c.id) = [c] →
      SelChain sel c n → SelChain sel b (n + 1)

theorem selChain_processBone {sel : Nat → Bool} {b : Bone} {n : Nat}
    (h : SelChain sel b n) :
    ∀ (pre : String) (main chainId boneNum next : Nat),
      (processBone sel pre main b chainId boneNum next).1.map (fun a => a.name) =
        (List.range n).map (fun k => getChainName pre main chainId (boneNum + k)) ∧
      (processBone sel pre main b chainId boneNum next).2 = next := by
  induction h with
  | last b hb =>
    intro pre main chainId boneNum next
    obtain ⟨i, cs⟩ := b
    have hb' : cs.filter (fun c => sel c.id) = [] := hb
    have heq : processBone sel pre main (Bone.mk i cs) chainId boneNum next =
        ([⟨i, main, chainId, boneNum, getChainName pre main chainId boneNum⟩],
          next) := by
      simp [processBone, hb', processChildren]
    rw [heq]
    simp [show List.range 1 = [0] from by decide]
  | step b c n hc hchain ih =>
    intro pre main chainId boneNum next
    obtain ⟨i, cs⟩ := b
    have hc' : cs.filter (fun c => sel c.id) = [c] := hc
    have heq : processBone sel pre main (Bone.mk i cs) chainId boneNum next =
        (⟨i, main, chainId, boneNum, getChainName pre main chainId boneNum⟩ ::
          (processBone sel pre main c chainId (boneNum + 1) next).1,
         (processBone sel pre main c chainId (boneNum + 1) next).2) := by
      simp [processBone, hc', processChildren, processRest]
    obtain ⟨ihn, ihs⟩ := ih pre main chainId (boneNum + 1) next
    rw [heq]
    simp only [List.map_cons, ihn]
    refine ⟨?_, ihs⟩
    rw [List.range_succ_eq_map]
    simp only [List.map_cons, List.map_map]
    congr 1
    apply List.map_congr_left
    intro k _
    simp only [Function.comp_apply]
    rw [show boneNum + Nat.succ k = boneNum + 1 + k from by omega]

theorem mem_rootsAuxList_exists {sel : Nat → Bool} {pS : Bool} {b : Bone}
    {l : List Bone} (hb : b ∈ rootsAuxList sel pS l) :
    ∃ c ∈ l, b ∈ rootsAux sel pS c := by
  induction l with
  | nil => simp [rootsAuxList] at hb
  | cons d ds ih =>
    rw [show rootsAuxList sel pS (d :: ds) =
      rootsAux sel pS d ++ rootsAuxList sel pS ds from by simp [rootsAuxList]]
      at hb
    rcases List.mem_append.mp hb with h | h
    · exact ⟨d, List.mem_cons_self d ds, h⟩
    · obtain ⟨c, hc, hbc⟩ := ih h
      exact ⟨c, List.mem_cons_of_mem d hc, hbc⟩

/-- A root produced by `rootsAux` is a selected bone of the subtree it
came from. -/
theorem rootsAux_mem_selected (sel : Nat → Bool) :
    ∀ cb : Bone, ∀ (pS : Bool) (b : Bone), b ∈ rootsAux sel pS cb →
      sel b.id = true ∧ b ∈ flattenBone cb := by
  apply Bone.strongInd
  intro i cs hcs pS b hb
  have hra : rootsAux sel pS (Bone.mk i cs) =
      (if sel i && !pS then [Bone.mk i cs] else []) ++
        rootsAuxList sel (sel i) cs := by
    simp [rootsAux]
  have hfb : flattenBone (Bone.mk i cs) = Bone.mk i cs :: flattenList cs := by
    simp [flattenBone]
  rw [hra, List.mem_append] at hb
  rcases hb with hb | hb
  · by_cases hcond : (sel i && !pS) = true
    · rw [if_pos hcond] at hb
      have hbb := List.mem_singleton.mp hb
      subst hbb
      refine ⟨?_, by rw [hfb]; exact List.mem_cons_self _ _⟩
      exact (Bool.and_eq_true_iff.mp hcond).1
    · rw [if_neg hcond] at hb
      simp at hb
  · obtain ⟨c', hc', hbc⟩ := mem_rootsAuxList_exists hb
    obtain ⟨hsel, hmem⟩ := hcs c' hc' (sel i) b hbc
    refine ⟨hsel, ?_⟩
    rw [hfb]
    exact List.mem_cons_of_mem _ (mem_flattenList.mpr ⟨c', hc', hmem⟩)

/-- Every root bone is itself a selected bone of the forest. -/
theorem rootBones_mem_selectedBones {sel : Nat → Bool} {forest : List Bone}
    {r : Bone} (hr : r ∈ rootBones sel forest) :
    r ∈ selectedBones sel forest := by
  obtain ⟨c, hc, hrc⟩ := mem_rootsAuxList_exists hr
  obtain ⟨hsel, hmem⟩ := rootsAux_mem_selected sel c false r hrc
  exact List.mem_filter.mpr ⟨mem_flattenList.mpr ⟨c, hc, hmem⟩, hsel⟩

/-- C7 — for every selection of any forest that forms a single
unbranched chain of `N` bones (one selection root, and each chain bone's
only selected child is the next), the renamer assigns the names
`getChainName pre 1 1 1` through `getChainName pre 1 1 N` in depth
order; with the prefix "P" these read `P_1_1_k`, and with the empty
prefix the leading underscore is kept (`_1_1_k`). -/
theorem c7_unbranched_chain (sel : Nat → Bool) (pre : String)
    (forest : List Bone) (r : Bone) (N : Nat)
    (hroots : rootBones sel forest = [r]) (hchain : SelChain sel r N) :
    Except.map (List.map (fun a => a.name)) (renameExecute sel pre forest) =
      .ok ((List.range N).map (fun k => getChainName pre 1 1 (k + 1))) ∧
    (∀ k, getChainName "P" 1 1 k = "P_1_1_" ++ Nat.repr k) ∧
    (∀ k, getChainName "" 1 1 k = "_1_1_" ++ Nat.repr k) := by
  refine ⟨?_, ?_, ?_⟩
  · have hrmem : r ∈ rootBones sel forest := by
      rw [hroots]
      exact List.mem_singleton_self r
    have hselne : selectedBones sel forest ≠ [] := by
      intro h
      have hmem := rootBones_mem_selectedBones hrmem
      rw [h] at hmem
      simp at hmem
    unfold renameExecute
    rw [if_neg (fun h => hselne (List.isEmpty_iff.mp h))]
    rw [hroots, if_neg (by simp)]
    have henum : ([r] : List Bone).enum = [(0, r)] := by simp
    rw [henum]
    simp only [List.map_cons, List.map_nil, List.flatten, List.append_nil,
      Except.map, Nat.zero_add]
    obtain ⟨hnames, _⟩ := selChain_processBone hchain pre 1 1 1 2
    rw [hnames]
    refine congrArg Except.ok ?_
    apply List.map_congr_left
    intro k _
    rw [Nat.add_comm 1 k]
  · intro k
    rw [getChainName, if_neg (by decide)]
    exact congrArg (fun s => s ++ Nat.repr k) (by decide)
  · intro k
    rw [getChainName, if_pos rfl]
    exact congrArg (fun s => s ++ Nat.repr k) (by decide)

/-- The witness forest for C7: an unselected armature root (id 0) whose
selected child (id 1) has one selected child (id 2) and one unselected
child (id 3); a further unselected sibling (id 4) is ignored. -/
def c7forest : List Bone :=
  [Bone.mk 0 [Bone.mk 1 [Bone.mk 2 [], Bone.mk 3 []], Bone.mk 4 []]]

/-- The witness selection for C7: exactly the bones 1 and 2. -/
def c7sel : Nat → Bool := fun i => i == 1 || i == 2

/-- Witness for C7: on the partially selected forest the chain of bones
1 and 2 is renamed `P_1_1_1`, `P_1_1_2`. -/
theorem c7_unbranched_chain_witness :
    Except.map (List.map (fun a => a.name)) (renameExecute c7sel "P" c7forest) =
      .ok ((List.range 2).map (fun k => getChainName "P" 1 1 (k + 1))) := by
  refine (c7_unbranched_chain c7sel "P" c7forest
    (Bone.mk 1 [Bone.mk 2 [], Bone.mk 3 []]) 2 ?_ ?_).1
  · simp [c7forest, c7sel, rootBones, rootsAuxList, rootsAux]
  · refine SelChain.step _ (Bone.mk 2 []) 1 ?_ (SelChain.last _ ?_)
    · simp [c7sel, Bone.id, Bone.children, List.filter]
    · rfl

/-! ## Chain namer: error conditions and coverage of the selection -/

mutual

/-- The bone ids renamed by `process_bone_chain` from a given bone: the
bone itself followed by the ids reached through selected children. -/
def selIds (sel : Nat → Bool) : Bone → List Nat
  | .mk i cs => i :: selIdsList sel cs
termination_by b => sizeOf b
decreasing_by
  simp only [Bone.mk.sizeOf_spec]; omega

/-- `selIds` over a list of bones, counting only selected ones. -/
def selIdsList (sel : Nat → Bool) : List Bone → List Nat
  | [] => []
  | b :: bs => (if sel b.id then selIds sel b else []) ++ selIdsList sel bs
termination_by l => sizeOf l
decreasing_by
  · simp only [List.cons.sizeOf_spec]; omega
  · simp only [List.cons.sizeOf_spec]; omega

end

theorem flatten_filter_selIds (sel : Nat → Bool) (cs : List Bone) :
    ((cs.filter (fun c => sel c.id)).map (selIds sel)).flatten =
      selIdsList sel cs := by
  induction cs with
  | nil => simp [selIdsList]
  | cons c rest ih =>
    rw [List.filter_cons]
    cases h : sel c.id with
    | true => simp [selIdsList, h, ih]
    | false => simp [selIdsList, h, ih]

/-- The ids renamed by a `processBone` call do not depend on the chain
numbering arguments. -/
def IdsSpec (b : Bone) : Prop :=
  ∀ (sel : Nat → Bool) (pre : String) (main chainId boneNum next : Nat),
    (processBone sel pre main b chainId boneNum next).1.map (fun a => a.boneId) =
      selIds sel b

theorem processRest_ids (sel : Nat → Bool) (pre : String) (main : Nat)
    (l : List Bone) (h : ∀ c ∈ l, IdsSpec c) :
    ∀ cur, (processRest sel pre main l cur).1.map (fun a => a.boneId) =
      (l.map (selIds sel)).flatten := by
  induction l with
  | nil => intro cur; simp [processRest]
  | cons c cs ih =>
    intro cur
    have heq : processRest sel pre main (c :: cs) cur =
        ((processBone sel pre main c cur 1 (cur + 1)).1 ++
          (processRest sel pre main cs
            (processBone sel pre main c cur 1 (cur + 1)).2).1,
         (processRest sel pre main cs
            (processBone sel pre main c cur 1 (cur + 1)).2).2) := by
      simp [processRest]
    rw [heq]
    simp only [List.map_append]
    rw [h c (List.mem_cons_self c cs) sel pre main cur 1 (cur + 1),
      ih (fun d hd => h d (List.mem_cons_of_mem c hd)) _]
    simp

theorem processChildren_ids (sel : Nat → Bool) (pre : String) (main : Nat)
    (l : List Bone) (h : ∀ c ∈ l, IdsSpec c) :
    ∀ chainId boneNum next,
      (processChildren sel pre main l chainId boneNum next).1.map
        (fun a => a.boneId) = (l.map (selIds sel)).flatten := by
  intro chainId boneNum next
  cases l with
  | nil => simp [processChildren]
  | cons c0 rest =>
    have heq : processChildren sel pre main (c0 :: rest) chainId boneNum next =
        ((processBone sel pre main c0 chainId (boneNum + 1) next).1 ++
          (processRest sel pre main rest
            (processBone sel pre main c0 chainId (boneNum + 1) next).2).1,
         (processRest sel pre main rest
            (processBone sel pre main c0 chainId (boneNum + 1) next).2).2) := by
      simp [processChildren]
    rw [heq]
    simp only [List.map_append]
    rw [h c0 (List.mem_cons_self c0 rest) sel pre main chainId (boneNum + 1) next,
      processRest_ids sel pre main rest
        (fun d hd => h d (List.mem_cons_of_mem c0 hd)) _]
    simp

theorem processBone_ids : ∀ b, IdsSpec b := by
  apply Bone.strongInd
  intro i cs hcs
  intro sel pre main chainId boneNum next
  have heq : processBone sel pre main (Bone.mk i cs) chainId boneNum next =
      (⟨i, main, chainId, boneNum, getChainName pre main chainId boneNum⟩ ::
        (processChildren sel pre main (cs.filter (fun c => sel c.id))
          chainId boneNum next).1,
       (processChildren sel pre main (cs.filter (fun c => sel c.id))
          chainId boneNum next).2) := by
    simp [processBone]
  rw [heq]
  simp only [List.map_cons]
  rw [processChildren_ids sel pre main (cs.filter (fun c => sel c.id))
    (fun c hc => hcs c (List.mem_of_mem_filter hc)) chainId boneNum next]
  rw [flatten_filter_selIds]
  simp [selIds]

theorem mem_rootsAuxList {sel : Nat → Bool} {pS : Bool} {y c : Bone}
    {l : List Bone} (hc : c ∈ l) (hy : y ∈ rootsAux sel pS c) :
    y ∈ rootsAuxList sel pS l := by
  induction l with
  | nil => simp at hc
  | cons d ds ih =>
    rcases List.mem_cons.mp hc with h | h
    · subst h
      simp [rootsAuxList, List.mem_append, hy]
    · simp [rootsAuxList, List.mem_append, ih h]

theorem mem_selIdsList {sel : Nat → Bool} {y : Nat} {c : Bone}
    {l : List Bone} (hc : c ∈ l) (hsel : sel c.id = true)
    (hy : y ∈ selIds sel c) : y ∈ selIdsList sel l := by
  induction l with
  | nil => simp at hc
  | cons d ds ih =>
    rcases List.mem_cons.mp hc with h | h
    · subst h
      simp [selIdsList, List.mem_append, hsel, hy]
    · simp [selIdsList, List.mem_append, ih h]

/-- Every selected bone in a subtree is renamed: its id appears either in
the current chain (when the parent is selected) or under one of the
selected roots found in the subtree. -/
theorem coverage : ∀ b : Bone, ∀ (sel : Nat → Bool) (pS : Bool),
    ∀ x ∈ flattenBone b, sel x.id = true →
      x.id ∈ (if pS && sel b.id then selIds sel b else []) ++
        ((rootsAux sel pS b).map (selIds sel)).flatten := by
  apply Bone.strongInd
  intro i cs hcs sel pS x hx hsel
  have hbid : (Bone.mk i cs).id = i := rfl
  have hfb : flattenBone (Bone.mk i cs) = Bone.mk i cs :: flattenList cs := by
    simp [flattenBone]
  have hra : rootsAux sel pS (Bone.mk i cs) =
      (if sel i && !pS then [Bone.mk i cs] else []) ++
        rootsAuxList sel (sel i) cs := by
    simp [rootsAux]
  rw [hfb] at hx
  rcases List.mem_cons.mp hx with hx | hx
  · subst hx
    rw [hbid] at hsel ⊢
    cases hpS : pS with
    | true =>
      rw [if_pos (by simp [hsel])]
      apply List.mem_append_left
      simp [selIds]
    | false =>
      rw [hpS] at hra
      rw [if_neg (by simp), List.nil_append, hra,
        if_pos (by simp [hsel]), List.singleton_append, List.map_cons,
        List.flatten_cons]
      apply List.mem_append_left
      simp [selIds]
  · obtain ⟨c, hc, hxc⟩ := mem_flattenList.mp hx
    have IH := hcs c hc sel (sel i) x hxc hsel
    rw [List.mem_append] at IH
    rw [hbid]
    rcases IH with hin | hin
    · by_cases hcond : (sel i && sel c.id) = true
      case neg => rw [if_neg hcond] at hin; simp at hin
      case pos =>
        rw [if_pos hcond] at hin
        obtain ⟨hseli, hselc⟩ := Bool.and_eq_true_iff.mp hcond
        have hmem1 : x.id ∈ selIds sel (Bone.mk i cs) := by
          have hm := mem_selIdsList hc hselc hin
          simp [selIds, hm]
        cases hpS : pS with
        | true =>
          rw [if_pos (by simp [hseli])]
          exact List.mem_append_left _ hmem1
        | false =>
          rw [hpS] at hra
          rw [if_neg (by simp), List.nil_append, hra,
            if_pos (by simp [hseli]), List.singleton_append, List.map_cons,
            List.flatten_cons]
          exact List.mem_append_left _ hmem1
    · obtain ⟨lst, hlst, hxin⟩ := List.mem_flatten.mp hin
      obtain ⟨r, hr, rfl⟩ := List.mem_map.mp hlst
      have hr2 : r ∈ rootsAuxList sel (sel i) cs := mem_rootsAuxList hc hr
      have hr3 : r ∈ rootsAux sel pS (Bone.mk i cs) := by
        rw [hra]
        exact List.mem_append_right _ hr2
      apply List.mem_append_right
      exact List.mem_flatten.mpr ⟨selIds sel r, List.mem_map.mpr ⟨r, hr3, rfl⟩, hxin⟩

/-- Forest-level coverage: every selected bone's id appears under some
selected root of the forest. -/
theorem coverage_forest (sel : Nat → Bool) (forest : List Bone) :
    ∀ x ∈ flattenList forest, sel x.id = true →
      x.id ∈ ((rootsAuxList sel false forest).map (selIds sel)).flatten := by
  intro x hx hsel
  obtain ⟨c, hc, hxc⟩ := mem_flattenList.mp hx
  have h := coverage c sel false x hxc hsel
  rw [Bool.false_and, if_neg (by simp), List.nil_append] at h
  obtain ⟨lst, hlst, hxin⟩ := List.mem_flatten.mp h
  obtain ⟨r, hr, rfl⟩ := List.mem_map.mp hlst
  exact List.mem_flatten.mpr ⟨selIds sel r,
    List.mem_map.mpr ⟨r, mem_rootsAuxList hc hr, rfl⟩, hxin⟩

/-- C9 — the renamer fails with the no-selection error exactly when no
bone is selected, fails with the no-root error exactly when the non-empty
selection has no bone whose parent is absent or unselected, and otherwise
succeeds and renames every selected bone. -/
theorem c9_rename_errors (sel : Nat → Bool) (pre : String) (forest : List Bone) :
    (renameExecute sel pre forest = .error .noSelection ↔
      selectedBones sel forest = []) ∧
    (renameExecute sel pre forest = .error .noRoot ↔
      (selectedBones sel forest ≠ [] ∧ rootBones sel forest = [])) ∧
    (selectedBones sel forest ≠ [] → rootBones sel forest ≠ [] →
      ∃ as', renameExecute sel pre forest = .ok as' ∧
        ∀ b ∈ selectedBones sel forest, b.id ∈ as'.map (fun a => a.boneId)) := by
  by_cases h1 : (selectedBones sel forest).isEmpty = true
  · have h1' := List.isEmpty_iff.mp h1
    refine ⟨by simp [renameExecute, h1, h1'], ?_, ?_⟩
    · simp only [renameExecute, h1, if_true]
      constructor
      · intro h
        exact absurd h (by simp)
      · intro h
        exact absurd h1' h.1
    · intro hne _
      exact absurd h1' hne
  · have h1' : selectedBones sel forest ≠ [] :=
      fun h => h1 (List.isEmpty_iff.mpr h)
    by_cases h2 : (rootBones sel forest).isEmpty = true
    · have h2' := List.isEmpty_iff.mp h2
      refine ⟨?_, by simp [renameExecute, h1, h2, h1', h2'], ?_⟩
      · simp only [renameExecute, h1, if_false, h2, if_true]
        constructor
        · intro h
          exact absurd h (by simp)
        · intro h
          exact absurd h h1'
      · intro _ hne
        exact absurd h2' hne
    · have h2' : rootBones sel forest ≠ [] :=
        fun h => h2 (List.isEmpty_iff.mpr h)
      refine ⟨by simp [renameExecute, h1, h2, h1'], ?_, ?_⟩
      · constructor
        · intro h
          simp [renameExecute, h1, h2] at h
        · intro h
          exact absurd h.2 h2'
      · intro _ _
        refine ⟨((rootBones sel forest).enum.map
          (fun ir => (processBone sel pre (ir.1 + 1) ir.2 1 1 2).1)).flatten,
          by simp [renameExecute, h1, h2], ?_⟩
        intro b hb
        have hids   : (((rootBones sel forest).enum.map
            (fun ir => (processBone sel pre (ir.1 + 1) ir.2 1 1 2).1)).flatten).map
              (fun a => a.boneId) =
            ((rootBones sel forest).map (selIds sel)).flatten := by
          rw [List.map_flatten, List.map_map]
          have hc : ∀ ir ∈ (rootBones sel forest).enum,
              ((List.map (fun a => a.boneId)) ∘
                (fun ir : Nat × Bone => (processBone sel pre (ir.1 + 1) ir.2 1 1 2).1)) ir =
              ((selIds sel) ∘ Prod.snd) ir := by
            intro ir _
            simp only [Function.comp_apply]
            exact processBone_ids ir.2 sel pre (ir.1 + 1) 1 1 2
          rw [List.map_congr_left hc]
          rw [show ((selIds sel) ∘ Prod.snd) =
            fun ir : Nat × Bone => selIds sel ir.2 from rfl]
          rw [show (List.map (fun ir : Nat × Bone => selIds sel ir.2)
              (rootBones sel forest).enum) =
            (List.map Prod.snd (rootBones sel forest).enum).map (selIds sel) from by
              rw [List.map_map]; rfl]
          rw [List.enum_map_snd]
        rw [hids]
        obtain ⟨hbmem, hbsel⟩ := List.mem_filter.mp hb
        exact coverage_forest sel forest b hbmem hbsel

/-- Witness for C9 at a concrete one-bone forest with everything
selected: the renamer succeeds and names the selected bone. -/
theorem c9_rename_errors_witness :
    ∃ as', renameExecute (fun _ => true) "P" [Bone.mk 7 []] = .ok as' ∧
      ∀ b ∈ selectedBones (fun _ => true) [Bone.mk 7 []],
        b.id ∈ as'.map (fun a => a.boneId) := by
  refine (c9_rename_errors (fun _ => true) "P" [Bone.mk 7 []]).2.2 ?_ ?_
  · simp [selectedBones, flattenList, flattenBone]
  · simp [rootBones, rootsAuxList, rootsAux]
